import Mathlib

/-!
Verification development for the Sentinel-2 land-cover download scripts
(`src/gee_data_download.py`, `src/gee_data_download_temporal.py`,
`src/normalization.py`).

The Python scripts are shallowly embedded: pure helpers become Lean
functions, the effectful download skeleton becomes an explicit fold over an
outcome list, calendar arithmetic (`pandas`/`dateutil`) is modelled over a
`Date` structure, and planar polygon geometry (`shapely`) is modelled by
finite unions of unit grid squares ("pixel regions"), which is exact for the
grid-aligned geometries considered here.
-/

namespace LandCover

/-! ## Calendar model

Models `pandas.Timestamp` at day resolution together with
`dateutil.relativedelta(months=1)` and `pandas.Timedelta(days=1)` as used by
the month loop of `get_sentinel2_monthly`
(`src/gee_data_download_temporal.py`, lines 111-141). -/

/-- A calendar date (a `pandas.Timestamp` truncated to day resolution). -/
structure Date where
  year : Nat
  month : Nat
  day : Nat
deriving DecidableEq, Repr

/-- Gregorian leap-year rule (as implemented by `pandas`/`dateutil`). -/
def isLeap (y : Nat) : Bool := y % 4 == 0 && (y % 100 != 0 || y % 400 == 0)

/-- Number of days in month `m` of year `y`. -/
def daysInMonth (y m : Nat) : Nat :=
  if m = 2 then (if isLeap y then 29 else 28)
  else if m = 4 ∨ m = 6 ∨ m = 9 ∨ m = 11 then 30
  else 31

/-- Chronological strict order on dates (`Timestamp` comparison). -/
def dateLtB (a b : Date) : Bool :=
  a.year < b.year ||
    (a.year == b.year &&
      (a.month < b.month || (a.month == b.month && a.day < b.day)))

/-- `d + relativedelta(months=1)`: advance one calendar month, clamping the
day-of-month to the target month's length (`dateutil` semantics). -/
def addMonth (d : Date) : Date :=
  let y := if d.month = 12 then d.year + 1 else d.year
  let m := if d.month = 12 then 1 else d.month + 1
  { year := y, month := m, day := min d.day (daysInMonth y m) }

/-- `d - pd.Timedelta(days=1)`: step back one calendar day. -/
def subDay (d : Date) : Date :=
  if 2 ≤ d.day then { d with day := d.day - 1 }
  else if d.month = 1 then { year := d.year - 1, month := 12, day := 31 }
  else { year := d.year, month := d.month - 1,
         day := daysInMonth d.year (d.month - 1) }

/-- The `month_end` computed by the loop body: `month_start +
relativedelta(months=1) - pd.Timedelta(days=1)`, then clamped by
`if month_end > end: month_end = end`. -/
def windowEnd (c e : Date) : Date :=
  let m := subDay (addMonth c)
  if dateLtB e m then e else m

/-- Fuel-indexed unfolding of the `while current < end` loop of
`get_sentinel2_monthly`: each iteration emits the window
`(month_start, month_end)` and advances `current` by one month. -/
def windowsAux (e : Date) : Nat → Date → List (Date × Date)
  | 0, _ => []
  | fuel + 1, c =>
    if dateLtB c e then (c, windowEnd c e) :: windowsAux e fuel (addMonth c)
    else []

/-- Linear month count of a date, used as a termination measure for the
month loop. -/
def monthIndex (d : Date) : Nat := 12 * d.year + (d.month - 1)

/-- Fuel that upper-bounds the number of iterations of the month loop. -/
def windowFuel (s e : Date) : Nat := monthIndex e + 1 - monthIndex s

/-- The list of `(month_start, month_end)` windows generated by the
`while current < end` loop (lines 111-141 of
`src/gee_data_download_temporal.py`). -/
def monthlyWindows (s e : Date) : List (Date × Date) :=
  windowsAux e (windowFuel s e) s

/-- `n` applications of `addMonth`. -/
def addMonthsN : Nat → Date → Date
  | 0, d => d
  | n + 1, d => addMonthsN n (addMonth d)

/-- A date whose month field is in the calendar range `1..12`. -/
def validMonth (d : Date) : Prop := 1 ≤ d.month ∧ d.month ≤ 12

instance (d : Date) : Decidable (validMonth d) := by
  unfold validMonth; infer_instance

theorem validMonth_addMonth {d : Date} (hd : validMonth d) :
    validMonth (addMonth d) := by
  obtain ⟨h1, h2⟩ := hd
  unfold addMonth validMonth
  by_cases h : d.month = 12 <;> simp [h] <;> omega

theorem validMonth_addMonthsN {d : Date} (h : validMonth d) (n : Nat) :
    validMonth (addMonthsN n d) := by
  induction n generalizing d with
  | zero => exact h
  | succ n ih => exact ih (validMonth_addMonth h)

theorem monthIndex_addMonth {d : Date} (h : validMonth d) :
    monthIndex (addMonth d) = monthIndex d + 1 := by
  obtain ⟨h1, h2⟩ := h
  unfold addMonth monthIndex
  by_cases h12 : d.month = 12 <;> simp [h12] <;> omega

theorem monthIndex_addMonthsN {d : Date} (h : validMonth d) (n : Nat) :
    monthIndex (addMonthsN n d) = monthIndex d + n := by
  induction n generalizing d with
  | zero => rfl
  | succ n ih =>
    have := ih (validMonth_addMonth h)
    unfold addMonthsN
    rw [this, monthIndex_addMonth h]
    omega

theorem monthIndex_le_of_dateLtB {a b : Date} (ha : validMonth a)
    (hb : validMonth b) (h : dateLtB a b = true) :
    monthIndex a ≤ monthIndex b := by
  obtain ⟨ha1, ha2⟩ := ha
  obtain ⟨hb1, hb2⟩ := hb
  unfold dateLtB at h
  unfold monthIndex
  simp only [Bool.or_eq_true, Bool.and_eq_true, decide_eq_true_eq, beq_iff_eq] at h
  omega

theorem dateLtB_false_of_monthIndex_lt {a b : Date} (ha : validMonth a)
    (hb : validMonth b) (h : monthIndex b < monthIndex a) :
    dateLtB a b = false := by
  by_contra hc
  have : dateLtB a b = true := by
    cases hab : dateLtB a b
    · exact absurd hab hc
    · rfl
  exact absurd (monthIndex_le_of_dateLtB ha hb this) (by omega)

theorem monthIndex_le_of_not_dateLtB {a b : Date} (ha : validMonth a)
    (hb : validMonth b) (h : dateLtB a b = false) :
    monthIndex b ≤ monthIndex a := by
  obtain ⟨ha1, ha2⟩ := ha
  obtain ⟨hb1, hb2⟩ := hb
  have h' : ¬ (dateLtB a b = true) := by simp [h]
  unfold dateLtB at h'
  simp only [Bool.or_eq_true, Bool.and_eq_true, decide_eq_true_eq,
    beq_iff_eq] at h'
  push_neg at h'
  unfold monthIndex
  omega

/-- Closed-form characterization of the month-window loop: the generated
list indexes windows by iterated `addMonth`, and a window with index `i`
exists exactly when the `i`-th candidate start is still before `e`. -/
theorem windowsAux_spec (e : Date) (he : validMonth e) :
    ∀ fuel c, validMonth c → windowFuel c e ≤ fuel →
      windowsAux e fuel c =
        (List.range (windowsAux e fuel c).length).map
          (fun i => (addMonthsN i c, windowEnd (addMonthsN i c) e)) ∧
      (∀ i, i < (windowsAux e fuel c).length ↔
        dateLtB (addMonthsN i c) e = true) := by
  intro fuel
  induction fuel with
  | zero =>
    intro c hc hf
    have hlt : monthIndex e < monthIndex c := by
      unfold windowFuel at hf; omega
    constructor
    · simp [windowsAux]
    · intro i
      simp only [windowsAux, List.length_nil]
      constructor
      · omega
      · intro hi
        have hv := validMonth_addMonthsN hc i
        have hidx := monthIndex_addMonthsN hc i
        have : dateLtB (addMonthsN i c) e = false :=
          dateLtB_false_of_monthIndex_lt hv he (by omega)
        rw [this] at hi
        exact absurd hi (by simp)
  | succ fuel ih =>
    intro c hc hf
    by_cases hlt : dateLtB c e = true
    · have hidx := monthIndex_le_of_dateLtB hc he hlt
      have hf' : windowFuel (addMonth c) e ≤ fuel := by
        unfold windowFuel at hf ⊢
        rw [monthIndex_addMonth hc]
        omega
      obtain ⟨ih1, ih2⟩ := ih (addMonth c) (validMonth_addMonth hc) hf'
      have hstep : windowsAux e (fuel + 1) c =
          (c, windowEnd c e) :: windowsAux e fuel (addMonth c) := by
        simp [windowsAux, hlt]
      constructor
      · rw [hstep]
        simp only [List.length_cons]
        rw [List.range_succ_eq_map]
        simp only [List.map_cons, List.map_map]
        have hhead : (addMonthsN 0 c, windowEnd (addMonthsN 0 c) e) =
            (c, windowEnd c e) := rfl
        have htail :
            (List.range (windowsAux e fuel (addMonth c)).length).map
              ((fun i => (addMonthsN i c, windowEnd (addMonthsN i c) e)) ∘
                Nat.succ) =
            (List.range (windowsAux e fuel (addMonth c)).length).map
              (fun i => (addMonthsN i (addMonth c),
                windowEnd (addMonthsN i (addMonth c)) e)) := rfl
        rw [hhead, htail, ← ih1]
      · intro i
        rw [hstep]
        simp only [List.length_cons]
        cases i with
        | zero =>
          simpa [addMonthsN] using hlt
        | succ i =>
          have := ih2 i
          simpa [addMonthsN, Nat.succ_lt_succ_iff] using this
    · have hstep : windowsAux e (fuel + 1) c = [] := by
        simp only [windowsAux]
        rw [Bool.not_eq_true] at hlt
        simp [hlt]
      constructor
      · simp [hstep]
      · intro i
        rw [hstep]
        simp only [List.length_nil]
        constructor
        · omega
        · intro hi
          cases i with
          | zero => simp [addMonthsN] at hi; rw [hi] at hlt; exact absurd rfl hlt
          | succ i =>
            have hv := validMonth_addMonthsN hc (i + 1)
            have hidx := monthIndex_addMonthsN hc (i + 1)
            have hlt' : dateLtB c e = false := by
              rw [Bool.not_eq_true] at hlt
              exact hlt
            have hnc : monthIndex e ≤ monthIndex c :=
              monthIndex_le_of_not_dateLtB hc he hlt'
            have : dateLtB (addMonthsN (i + 1) c) e = false :=
              dateLtB_false_of_monthIndex_lt hv he (by omega)
            rw [this] at hi
            exact absurd hi (by simp)

/-- One per-tile pass of the month loop of `get_sentinel2_monthly`
(lines 111-141): `sizeIsZero m` models the remote answer to
`s2.size().getInfo() == 0` for the month starting at `m` (the `continue`
branch at lines 126-129). Both branches advance `current` by one month, so
the list of queried month starts is produced alongside the skip flag. -/
def monthLoopAux (sizeIsZero : Date → Bool) (e : Date) :
    Nat → Date → List (Date × Bool)
  | 0, _ => []
  | fuel + 1, c =>
    if dateLtB c e then
      (c, sizeIsZero c) :: monthLoopAux sizeIsZero e fuel (addMonth c)
    else []

/-- The sequence of months queried by one tile's `while current < end` loop,
each paired with whether the month was skipped for lack of images. -/
def monthLoop (sizeIsZero : Date → Bool) (s e : Date) : List (Date × Bool) :=
  monthLoopAux sizeIsZero e (windowFuel s e) s

theorem monthLoopAux_eq_windowsAux (sizeIsZero : Date → Bool) (e : Date) :
    ∀ fuel c, monthLoopAux sizeIsZero e fuel c =
      (windowsAux e fuel c).map (fun w => (w.1, sizeIsZero w.1)) := by
  intro fuel
  induction fuel with
  | zero => intro c; simp [monthLoopAux, windowsAux]
  | succ fuel ih =>
    intro c
    by_cases h : dateLtB c e = true
    · simp [monthLoopAux, windowsAux, h, ih]
    · rw [Bool.not_eq_true] at h
      simp [monthLoopAux, windowsAux, h]

/-- C1: the month-window iteration over `[start, end)` produces windows whose
starts are `start`, `start + 1 month`, ...; each window's end is its start
plus one month minus one day, clamped to `end`; iteration stops at the first
candidate start that is not strictly before `end` (so `start >= end` yields
no windows); and on start=2022-01-15, end=2022-04-01 the window starts are
exactly 2022-01-15, 2022-02-15, 2022-03-15. -/
theorem c1_month_windows :
    (∀ s e : Date, validMonth s → validMonth e →
      monthlyWindows s e =
        (List.range (monthlyWindows s e).length).map
          (fun i => (addMonthsN i s, windowEnd (addMonthsN i s) e)) ∧
      (∀ i, i < (monthlyWindows s e).length ↔
        dateLtB (addMonthsN i s) e = true) ∧
      (dateLtB s e = false → monthlyWindows s e = [])) ∧
    (monthlyWindows ⟨2022, 1, 15⟩ ⟨2022, 4, 1⟩).map Prod.fst =
      [⟨2022, 1, 15⟩, ⟨2022, 2, 15⟩, ⟨2022, 3, 15⟩] ∧
    (monthlyWindows ⟨2022, 1, 15⟩ ⟨2022, 4, 1⟩).map Prod.snd =
      [⟨2022, 2, 14⟩, ⟨2022, 3, 14⟩, ⟨2022, 4, 1⟩] := by
  refine ⟨?_, by decide, by decide⟩
  intro s e hs he
  obtain ⟨h1, h2⟩ := windowsAux_spec e he (windowFuel s e) s hs (le_refl _)
  have h1' : monthlyWindows s e =
      (List.range (monthlyWindows s e).length).map
        (fun i => (addMonthsN i s, windowEnd (addMonthsN i s) e)) := h1
  have h2' : ∀ i, i < (monthlyWindows s e).length ↔
      dateLtB (addMonthsN i s) e = true := h2
  refine ⟨h1', h2', ?_⟩
  intro hlt
  have h0 : ¬ (0 < (monthlyWindows s e).length) := by
    rw [h2' 0]
    simp [addMonthsN, hlt]
  cases hmw : monthlyWindows s e with
  | nil => rfl
  | cons a l => rw [hmw] at h0; simp at h0

/-- C1 witness: concrete degenerate instance `start >= end`. -/
theorem c1_month_windows_witness :
    monthlyWindows ⟨2022, 4, 1⟩ ⟨2022, 1, 15⟩ = [] :=
  (c1_month_windows.1 ⟨2022, 4, 1⟩ ⟨2022, 1, 15⟩ (by decide) (by decide)).2.2
    (by decide)

/-- C10: in the per-tile month loop, the date cursor advances by exactly one
calendar month on every iteration, including iterations skipped because no
images were found (the queried starts do not depend on the `size == 0`
oracle), so the loop visits exactly the window starts — a finite, duplicate
free list: each (tile, calendar month) pair is queried at most once. -/
theorem c10_month_cursor (sizeIsZero : Date → Bool) (s e : Date)
    (hs : validMonth s) (he : validMonth e) :
    (monthLoop sizeIsZero s e).map Prod.fst =
      (monthlyWindows s e).map Prod.fst ∧
    (monthLoop sizeIsZero s e).map Prod.fst =
      (List.range (monthLoop sizeIsZero s e).length).map
        (fun i => addMonthsN i s) ∧
    ((monthLoop sizeIsZero s e).map Prod.fst).Nodup := by
  have hbase : (monthLoop sizeIsZero s e).map Prod.fst =
      (monthlyWindows s e).map Prod.fst := by
    unfold monthLoop monthlyWindows
    rw [monthLoopAux_eq_windowsAux]
    rw [List.map_map]
    rfl
  obtain ⟨h1, _⟩ := windowsAux_spec e he (windowFuel s e) s hs (le_refl _)
  have h1' : monthlyWindows s e =
      (List.range (monthlyWindows s e).length).map
        (fun i => (addMonthsN i s, windowEnd (addMonthsN i s) e)) := h1
  have hform : (monthlyWindows s e).map Prod.fst =
      (List.range (monthlyWindows s e).length).map (fun i => addMonthsN i s) := by
    conv_lhs => rw [h1']
    rw [List.map_map]
    rfl
  have hlen : (monthLoop sizeIsZero s e).length = (monthlyWindows s e).length := by
    have := congrArg List.length hbase
    simpa using this
  refine ⟨hbase, by rw [hbase, hform, hlen], ?_⟩
  rw [hbase, hform]
  apply List.Nodup.map_on
  · intro i hi j hj hij
    have hi' := monthIndex_addMonthsN hs i
    have hj' := monthIndex_addMonthsN hs j
    have : monthIndex (addMonthsN i s) = monthIndex (addMonthsN j s) := by
      rw [hij]
    omega
  · exact List.nodup_range _

/-- C10 witness: concrete instantiation of the cursor theorem. -/
theorem c10_month_cursor_witness :
    ((monthLoop (fun _ => false) ⟨2022, 1, 15⟩ ⟨2022, 4, 1⟩).map
      Prod.fst).Nodup :=
  (c10_month_cursor (fun _ => false) ⟨2022, 1, 15⟩ ⟨2022, 4, 1⟩
    (by decide) (by decide)).2.2

/-! ## Generic fold-min/fold-max lemmas

Used for `np.nanmin`/`np.nanmax` (normalization model) and for
`polygon.bounds` (pixel-geometry model). -/

theorem foldl_min_le_init {α : Type} [LinearOrder α] (l : List α) (a : α) :
    l.foldl min a ≤ a := by
  induction l generalizing a with
  | nil => simp
  | cons x xs ih =>
    simp only [List.foldl_cons]
    exact le_trans (ih (min a x)) (min_le_left a x)

theorem foldl_min_le_mem {α : Type} [LinearOrder α] (l : List α) (a : α) :
    ∀ x ∈ l, l.foldl min a ≤ x := by
  induction l generalizing a with
  | nil => intro x hx; simp at hx
  | cons y ys ih =>
    intro x hx
    simp only [List.mem_cons] at hx
    rcases hx with rfl | hx
    · exact le_trans (foldl_min_le_init ys (min a x)) (min_le_right a x)
    · exact ih (min a y) x hx

theorem foldl_min_mem {α : Type} [LinearOrder α] (l : List α) (a : α) :
    l.foldl min a = a ∨ l.foldl min a ∈ l := by
  induction l generalizing a with
  | nil => left; rfl
  | cons x xs ih =>
    simp only [List.foldl_cons, List.mem_cons]
    rcases ih (min a x) with h | h
    · rcases min_cases a x with ⟨hm, _⟩ | ⟨hm, _⟩
      · left; rw [h, hm]
      · right; left; rw [h, hm]
    · right; right; exact h

theorem le_foldl_max_init {α : Type} [LinearOrder α] (l : List α) (a : α) :
    a ≤ l.foldl max a := by
  induction l generalizing a with
  | nil => simp
  | cons x xs ih =>
    simp only [List.foldl_cons]
    exact le_trans (le_max_left a x) (ih (max a x))

theorem le_foldl_max_mem {α : Type} [LinearOrder α] (l : List α) (a : α) :
    ∀ x ∈ l, x ≤ l.foldl max a := by
  induction l generalizing a with
  | nil => intro x hx; simp at hx
  | cons y ys ih =>
    intro x hx
    simp only [List.mem_cons] at hx
    rcases hx with rfl | hx
    · exact le_trans (le_max_right a x) (le_foldl_max_init ys (max a x))
    · exact ih (max a y) x hx

theorem foldl_max_mem {α : Type} [LinearOrder α] (l : List α) (a : α) :
    l.foldl max a = a ∨ l.foldl max a ∈ l := by
  induction l generalizing a with
  | nil => left; rfl
  | cons x xs ih =>
    simp only [List.foldl_cons, List.mem_cons]
    rcases ih (max a x) with h | h
    · rcases max_cases a x with ⟨hm, _⟩ | ⟨hm, _⟩
      · left; rw [h, hm]
      · right; left; rw [h, hm]
    · right; right; exact h

/-! ## Normalization model

`normalize` from `src/normalization.py` (identical copy at lines 63-70 of
`src/gee_data_download.py`). A numpy float array is modelled as a
`List (Option ℚ)`: `none` models NaN, `some x` a finite value (exact
rational arithmetic stands in for IEEE floats). `np.nanmin`/`np.nanmax`
ignore NaN entries; elementwise arithmetic propagates NaN; `np.zeros_like`
is the all-zero array of the same shape. When every entry is NaN,
`np.nanmin == np.nanmax` is a NaN comparison, hence false, and the
elementwise `(array - nan) / (nan - nan)` is all-NaN. -/

def nanmin (a : List (Option ℚ)) : Option ℚ :=
  match a.filterMap id with
  | [] => none
  | x :: xs => some (xs.foldl min x)

def nanmax (a : List (Option ℚ)) : Option ℚ :=
  match a.filterMap id with
  | [] => none
  | x :: xs => some (xs.foldl max x)

def zeros_like (a : List (Option ℚ)) : List (Option ℚ) :=
  a.map (fun _ => some 0)

/-- `normalize` (`src/normalization.py`, lines 3-10). -/
def normalize (array : List (Option ℚ)) : List (Option ℚ) :=
  match nanmin array, nanmax array with
  | some array_min, some array_max =>
    if array_max = array_min then zeros_like array
    else array.map (Option.map (fun x =>
      (x - array_min) / (array_max - array_min)))
  | _, _ => array.map (fun _ => none)

theorem nanmin_le_mem {a : List (Option ℚ)} {mn x : ℚ}
    (hmn : nanmin a = some mn) (hx : some x ∈ a) : mn ≤ x := by
  have hx' : x ∈ a.filterMap id := by
    rw [List.mem_filterMap]
    exact ⟨some x, hx, rfl⟩
  unfold nanmin at hmn
  cases hfm : a.filterMap id with
  | nil => rw [hfm] at hmn; simp at hmn
  | cons y ys =>
    rw [hfm] at hmn hx'
    simp only [Option.some.injEq] at hmn
    subst hmn
    simp only [List.mem_cons] at hx'
    rcases hx' with rfl | hx'
    · exact foldl_min_le_init ys x
    · exact foldl_min_le_mem ys y x hx'

theorem le_nanmax_mem {a : List (Option ℚ)} {mx x : ℚ}
    (hmx : nanmax a = some mx) (hx : some x ∈ a) : x ≤ mx := by
  have hx' : x ∈ a.filterMap id := by
    rw [List.mem_filterMap]
    exact ⟨some x, hx, rfl⟩
  unfold nanmax at hmx
  cases hfm : a.filterMap id with
  | nil => rw [hfm] at hmx; simp at hmx
  | cons y ys =>
    rw [hfm] at hmx hx'
    simp only [Option.some.injEq] at hmx
    subst hmx
    simp only [List.mem_cons] at hx'
    rcases hx' with rfl | hx'
    · exact le_foldl_max_init ys x
    · exact le_foldl_max_mem ys y x hx'

theorem nanmin_le_nanmax {a : List (Option ℚ)} {mn mx : ℚ}
    (hmn : nanmin a = some mn) (hmx : nanmax a = some mx) : mn ≤ mx := by
  unfold nanmin at hmn
  cases hfm : a.filterMap id with
  | nil => rw [hfm] at hmn; simp at hmn
  | cons y ys =>
    rw [hfm] at hmn
    simp only [Option.some.injEq] at hmn
    have hy : some y ∈ a := by
      have : y ∈ a.filterMap id := by rw [hfm]; exact List.mem_cons_self y ys
      rw [List.mem_filterMap] at this
      obtain ⟨o, ho, hoy⟩ := this
      cases o with
      | none => simp at hoy
      | some z => simp at hoy; rw [hoy] at ho; exact ho
    calc mn ≤ y := by rw [← hmn]; exact foldl_min_le_init ys y
    _ ≤ mx := le_nanmax_mem hmx hy

/-- C5: `normalize` maps a constant array (`nanmax = nanmin`) to an all-zero
array of the same shape instead of dividing by zero; when the finite values
are not all equal, every non-NaN result lies in `[0, 1]`. -/
theorem c5_normalize (a : List (Option ℚ)) (mn mx : ℚ)
    (hmn : nanmin a = some mn) (hmx : nanmax a = some mx) :
    (normalize a).length = a.length ∧
    (mx = mn → normalize a = zeros_like a) ∧
    (mx ≠ mn → ∀ o ∈ normalize a, ∀ v, o = some v → 0 ≤ v ∧ v ≤ 1) := by
  have hnorm : normalize a =
      if mx = mn then zeros_like a
      else a.map (Option.map (fun x => (x - mn) / (mx - mn))) := by
    unfold normalize
    rw [hmn, hmx]
  refine ⟨?_, ?_, ?_⟩
  · rw [hnorm]
    by_cases h : mx = mn
    · rw [if_pos h]; simp [zeros_like]
    · rw [if_neg h]; simp
  · intro h
    rw [hnorm, if_pos h]
  · intro h o ho v hov
    rw [hnorm, if_neg h] at ho
    subst hov
    rw [List.mem_map] at ho
    obtain ⟨o', ho', heq⟩ := ho
    cases o' with
    | none => simp at heq
    | some x =>
      simp only [Option.map_some', Option.some.injEq] at heq
      have hxl : mn ≤ x := nanmin_le_mem hmn ho'
      have hxu : x ≤ mx := le_nanmax_mem hmx ho'
      have hlt : mn < mx := lt_of_le_of_ne (nanmin_le_nanmax hmn hmx)
        (fun hc => h hc.symm)
      rw [← heq]
      constructor
      · apply div_nonneg <;> linarith
      · rw [div_le_one (by linarith)]
        linarith

/-- C5 witness: a constant array is sent to the all-zero array. -/
theorem c5_normalize_witness :
    normalize [some 2, some 2, none] = zeros_like [some 2, some 2, none] :=
  (c5_normalize [some 2, some 2, none] 2 2 (by decide) (by decide)).2.1 rfl

/-! ## Download-run skeleton (`get_sentinel2_monthly`, lines 72-151)

The body of the outer `try` of `get_sentinel2_monthly` is, after loading and
row filtering, a sequence of per-(tile, month) remote query steps. Each step
either yields a batch of sample rows (a dataframe appended to
`all_samples`), finds no images (the `continue` branch at lines 126-129,
nothing appended), or raises an exception. A raised exception propagates out
of the loops to the outermost `except` (lines 150-151), which logs it and
lets the function return; the CSV write (lines 143-148) sits inside the
`try` after the loops, so it only runs when no step raised. The process exit
code is 0 in every case. -/

/-- Outcome of one (tile, month) query step inside the loops. -/
inductive QueryStep (B : Type) where
  | batch : B → QueryStep B
  | noImages : QueryStep B
  | raises : QueryStep B
deriving DecidableEq, Repr

/-- Observable outcome of one invocation of the download routine. -/
structure RunOutcome (B : Type) where
  written : Option (List B)
  errorLogged : Bool
  warnedNoData : Bool
  exitCode : Nat
deriving DecidableEq, Repr

/-- The loops inside the `try`: fold over the query steps accumulating
`all_samples`; `Except.error` models an exception escaping the loops, and
carries the value of `all_samples` at that moment (the real exception
carries no rows — the carried list only lets the theorems talk about what
had been accumulated). -/
def runLoops {B : Type} : List (QueryStep B) → List B → Except (List B) (List B)
  | [], acc => .ok acc
  | .batch b :: rest, acc => runLoops rest (acc ++ [b])
  | .noImages :: rest, acc => runLoops rest acc
  | .raises :: _, acc => .error acc

/-- Control skeleton of `get_sentinel2_monthly`: run the loops inside the
`try`; on normal completion write the CSV when `all_samples` is non-empty,
else warn; on an exception, log it and return with nothing written. -/
def get_sentinel2_monthly {B : Type} (steps : List (QueryStep B)) :
    RunOutcome B :=
  match runLoops steps [] with
  | .error _ =>
    { written := none, errorLogged := true, warnedNoData := false,
      exitCode := 0 }
  | .ok all_samples =>
    if all_samples.isEmpty then
      { written := none, errorLogged := false, warnedNoData := true,
        exitCode := 0 }
    else
      { written := some all_samples, errorLogged := false,
        warnedNoData := false, exitCode := 0 }

/-- Whether some step of the run raises. -/
def hasRaise {B : Type} (steps : List (QueryStep B)) : Bool :=
  steps.any (fun s => match s with | .raises => true | _ => false)

/-- The batches accumulated in `all_samples` before the first raising step
(all batches, when no step raises). -/
def batchesBeforeRaise {B : Type} : List (QueryStep B) → List B
  | [] => []
  | .batch b :: rest => b :: batchesBeforeRaise rest
  | .noImages :: rest => batchesBeforeRaise rest
  | .raises :: _ => []

/-- All batches of the run (the value of `all_samples` after a raise-free
run). -/
def allBatches {B : Type} (steps : List (QueryStep B)) : List B :=
  steps.filterMap (fun s => match s with | .batch b => some b | _ => none)

theorem runLoops_eq {B : Type} :
    ∀ (steps : List (QueryStep B)) (acc : List B),
      runLoops steps acc =
        if hasRaise steps then Except.error (acc ++ batchesBeforeRaise steps)
        else Except.ok (acc ++ allBatches steps) := by
  intro steps
  induction steps with
  | nil => intro acc; simp [runLoops, hasRaise, allBatches]
  | cons s rest ih =>
    intro acc
    cases s with
    | batch b =>
      simp only [runLoops, ih (acc ++ [b]), hasRaise, List.any_cons,
        Bool.false_or, batchesBeforeRaise, allBatches, List.filterMap_cons]
      by_cases h : rest.any (fun s => match s with | .raises => true | _ => false) = true
      · rw [if_pos h, if_pos (by simpa [hasRaise] using h)]
        simp
      · rw [if_neg h, if_neg (by simpa [hasRaise] using h)]
        simp
    | noImages =>
      simp only [runLoops, ih acc, hasRaise, List.any_cons, Bool.false_or,
        batchesBeforeRaise, allBatches, List.filterMap_cons]
    | raises =>
      simp [runLoops, hasRaise, batchesBeforeRaise]

/-- C2 counterexample: one successful batch followed by a raising step. The
exception is caught and logged, the run exits 0, and the already-accumulated
batch `[0]` is NOT written out — the output stays absent, contradicting the
claim that partial results are written on failure. -/
theorem c2_counterexample :
    (get_sentinel2_monthly [QueryStep.batch (0 : Nat),
      QueryStep.raises]).errorLogged = true ∧
    (get_sentinel2_monthly [QueryStep.batch (0 : Nat),
      QueryStep.raises]).exitCode = 0 ∧
    batchesBeforeRaise [QueryStep.batch (0 : Nat), QueryStep.raises] = [0] ∧
    (get_sentinel2_monthly [QueryStep.batch (0 : Nat),
      QueryStep.raises]).written = none ∧
    ¬ ((get_sentinel2_monthly [QueryStep.batch (0 : Nat),
      QueryStep.raises]).written = some [0]) := by
  decide

/-- C2 (amended): every exception inside the loops is caught at the
outermost level, logged, and the function returns normally with exit code 0;
however, the rows accumulated before the failure are discarded — the output
CSV is written only when no step raises (and then only if some batch was
produced). -/
theorem c2_exception_handling {B : Type} (steps : List (QueryStep B)) :
    (get_sentinel2_monthly steps).exitCode = 0 ∧
    (get_sentinel2_monthly steps).errorLogged = hasRaise steps ∧
    (get_sentinel2_monthly steps).written =
      (if hasRaise steps then none
       else if (allBatches steps).isEmpty then none
       else some (allBatches steps)) := by
  unfold get_sentinel2_monthly
  rw [runLoops_eq steps []]
  by_cases h : hasRaise steps = true
  · rw [if_pos h, if_pos h]
    exact ⟨rfl, h.symm, rfl⟩
  · rw [if_neg h, if_neg h]
    rw [Bool.not_eq_true] at h
    simp only [List.nil_append]
    by_cases hb : (allBatches steps).isEmpty = true
    · simp [hb, h]
    · rw [Bool.not_eq_true] at hb
      simp [hb, h]

/-- C7: when no step raises, the output CSV is created exactly when at least
one batch was accumulated; with zero batches nothing is written and the
no-data warning is logged instead. -/
theorem c7_output_written_iff {B : Type} (steps : List (QueryStep B))
    (h : hasRaise steps = false) :
    (allBatches steps = [] →
      (get_sentinel2_monthly steps).written = none ∧
      (get_sentinel2_monthly steps).warnedNoData = true) ∧
    (allBatches steps ≠ [] →
      (get_sentinel2_monthly steps).written = some (allBatches steps) ∧
      (get_sentinel2_monthly steps).warnedNoData = false) ∧
    (get_sentinel2_monthly steps).exitCode = 0 := by
  unfold get_sentinel2_monthly
  rw [runLoops_eq steps [], h]
  simp only [Bool.false_eq_true, if_false, List.nil_append]
  refine ⟨?_, ?_, ?_⟩
  · intro hb
    simp [hb]
  · intro hb
    have : (allBatches steps).isEmpty = false := by
      cases hab : allBatches steps with
      | nil => exact absurd hab hb
      | cons x xs => rfl
    simp [this]
  · by_cases hb : (allBatches steps).isEmpty <;> simp [hb]

/-- C7 witness: a raise-free run where every month had no images — nothing
is written and the warning fires. -/
theorem c7_output_written_iff_witness :
    (get_sentinel2_monthly [(QueryStep.noImages : QueryStep Nat),
      QueryStep.noImages]).written = none ∧
    (get_sentinel2_monthly [(QueryStep.noImages : QueryStep Nat),
      QueryStep.noImages]).warnedNoData = true :=
  (c7_output_written_iff [QueryStep.noImages, QueryStep.noImages]
    (by decide)).1 (by decide)

/-! ## Label-column handling (`get_sentinel2_monthly`, lines 76-85 and 105)

An input `GeoDataFrame` is modelled as a flag recording whether the label
column is present, together with rows that carry a geometry identifier and
an optional label value (`none` models a null/absent label). Line 76 decides
inference mode (`label_col not in gdf.columns or
gdf[label_col].isnull().all()`); line 81 drops rows with a null label
otherwise; line 105 attaches `{label_col: value}` to a row's query exactly
when the row has the column and the value is not null. -/

structure LabeledRow (G L : Type) where
  geom : G
  label : Option L
deriving DecidableEq, Repr

structure GeoFrame (G L : Type) where
  hasLabelCol : Bool
  rows : List (LabeledRow G L)
deriving DecidableEq, Repr

/-- Line 76: inference mode holds when the label column is absent or every
label value is null. -/
def inferenceMode {G L : Type} (g : GeoFrame G L) : Bool :=
  !g.hasLabelCol || g.rows.all (fun r => r.label.isNone)

/-- Lines 76-81: the rows actually processed (`gdf_points`). -/
def selectedRows {G L : Type} (g : GeoFrame G L) :
    List (LabeledRow G L) :=
  if inferenceMode g then g.rows
  else g.rows.filter (fun r => r.label.isSome)

/-- Line 105: the label attached to a row's query properties (`none` models
the empty property mapping). -/
def rowProperties {G L : Type} (g : GeoFrame G L) (r : LabeledRow G L) :
    Option L :=
  if g.hasLabelCol && r.label.isSome then r.label else none

/-- C6: with the label column absent, no rows are dropped and no label is
carried into any row's query properties; with the column present and at
least one non-null label, exactly the null-label rows are dropped and the
label is carried through for every remaining row. -/
theorem c6_label_modes {G L : Type} (g : GeoFrame G L) :
    (g.hasLabelCol = false →
      selectedRows g = g.rows ∧
      ∀ r ∈ g.rows, rowProperties g r = none) ∧
    (g.hasLabelCol = true →
      (∃ r ∈ g.rows, r.label.isSome) →
      (∀ r, r ∈ selectedRows g ↔ r ∈ g.rows ∧ r.label.isSome) ∧
      (∀ r ∈ selectedRows g, rowProperties g r = r.label)) := by
  constructor
  · intro h
    constructor
    · unfold selectedRows inferenceMode
      rw [h]
      simp
    · intro r _
      unfold rowProperties
      rw [h]
      simp
  · intro h hex
    have hmode : inferenceMode g = false := by
      unfold inferenceMode
      rw [h]
      obtain ⟨r, hr, hl⟩ := hex
      simp only [Bool.not_true, Bool.false_or]
      cases hall : g.rows.all (fun r => r.label.isNone) with
      | false => rfl
      | true =>
        rw [List.all_eq_true] at hall
        have := hall r hr
        rw [Option.isNone_iff_eq_none] at this
        rw [this] at hl
        simp at hl
    have hsel : selectedRows g = g.rows.filter (fun r => r.label.isSome) := by
      unfold selectedRows
      rw [hmode]
      simp
    constructor
    · intro r
      rw [hsel, List.mem_filter]
    · intro r hr
      rw [hsel, List.mem_filter] at hr
      unfold rowProperties
      rw [h, hr.2]
      simp

/-- C6 witness: a two-row frame with one null label keeps the labelled row
(membership instance of the filtering characterization). -/
theorem c6_label_modes_witness :
    LabeledRow.mk (0 : Nat) (some (7 : Nat)) ∈
      selectedRows (GeoFrame.mk true
        [LabeledRow.mk (0 : Nat) (some (7 : Nat)),
         LabeledRow.mk (1 : Nat) none]) ↔
      LabeledRow.mk (0 : Nat) (some (7 : Nat)) ∈
        [LabeledRow.mk (0 : Nat) (some (7 : Nat)),
         LabeledRow.mk (1 : Nat) none] ∧
      (LabeledRow.mk (0 : Nat) (some (7 : Nat))).label.isSome :=
  ((c6_label_modes (GeoFrame.mk true
      [LabeledRow.mk (0 : Nat) (some (7 : Nat)),
       LabeledRow.mk (1 : Nat) none])).2 rfl
    ⟨LabeledRow.mk 0 (some 7), by decide, by decide⟩).1
    (LabeledRow.mk (0 : Nat) (some (7 : Nat)))

/-! ## Pixel-geometry model of `shapely` planar regions

`split_polygon_grid` (lines 45-64 of `src/gee_data_download_temporal.py`)
manipulates `shapely` polygons: `polygon.bounds`, `np.linspace`,
`shapely.geometry.box`, `polygon.intersection(b)`, `inter.is_empty`,
`inter.geom_type`, `inter.geoms`.

Planar regions are modelled as finite unions of closed unit grid squares: a
pixel `(a, b) : Int × Int` denotes the square `[a, a+1] × [b, b+1]`, and a
region is a duplicate-free list of pixels. For regions of this shape the
shapely notions are exact as long as the boxes passed to `intersection` have
integral edges (true of every use below, where the bounding-box side lengths
are divisible by the grid subdivision count):
- `bounds` is the pixel-set bounding box;
- `intersection` with a box keeps the pixels inside the box;
- `is_empty` is emptiness of the pixel set;
- `geom_type` is "Polygon" if the pixel set is edge-connected, otherwise
  "MultiPolygon" (test inputs below avoid corner-touching pixels, where
  shapely's ring-based answer is ambiguous);
- `geoms` lists the edge-connected components. -/

/-- One unit grid square `[a, a+1] × [b, b+1]`. -/
abbrev Pix := Int × Int

/-- A finite union of unit grid squares (a `shapely` region). -/
abbrev Region := List Pix

/-- Two pixels share an edge. -/
def adjB (p q : Pix) : Bool :=
  (p.1 == q.1 && (p.2 + 1 == q.2 || q.2 + 1 == p.2)) ||
  (p.2 == q.2 && (p.1 + 1 == q.1 || q.1 + 1 == p.1))

theorem adjB_iff (p q : Pix) : adjB p q = true ↔
    ((p.1 = q.1 ∧ (p.2 + 1 = q.2 ∨ q.2 + 1 = p.2)) ∨
     (p.2 = q.2 ∧ (p.1 + 1 = q.1 ∨ q.1 + 1 = p.1))) := by
  unfold adjB
  simp [Bool.or_eq_true, Bool.and_eq_true, beq_iff_eq]

theorem adjB_symm {p q : Pix} (h : adjB p q = true) : adjB q p = true := by
  rw [adjB_iff] at h ⊢
  omega

/-- Pixels of `r` equal or edge-adjacent to some pixel of `s` (one step of
region growing). -/
def expand (r s : Region) : Region :=
  r.filter (fun p => s.any (fun q => decide (p = q) || adjB p q))

/-- `n` steps of region growing inside `r`, from the seed set `s`. -/
def reach (r s : Region) : Nat → Region
  | 0 => s
  | n + 1 => expand r (reach r s n)

/-- Whether the pixel set is edge-connected (a single `shapely` Polygon). -/
def connectedB (r : Region) : Bool :=
  match r with
  | [] => true
  | p :: _ => r.all (fun q => decide (q ∈ reach r [p] r.length))

/-- `shapely`'s `geom_type` for a region of unit squares. -/
def geom_type (r : Region) : String :=
  if connectedB r then "Polygon" else "MultiPolygon"

/-- Edge-connected components, by repeatedly saturating from the first
remaining pixel. -/
def componentsAux : Nat → Region → List Region
  | 0, _ => []
  | _ + 1, [] => []
  | n + 1, p :: rest =>
    let c := reach (p :: rest) [p] (p :: rest).length
    c :: componentsAux n (rest.filter (fun q => !decide (q ∈ c)))

/-- `shapely`'s `.geoms` of a MultiPolygon: its connected components. -/
def geoms (r : Region) : List Region := componentsAux r.length r

/-- Minimum of a list of integers (0 for the empty list, which never occurs
in the uses below). -/
def listMinD (l : List Int) : Int :=
  match l with
  | [] => 0
  | x :: xs => xs.foldl min x

/-- Maximum of a list of integers (0 for the empty list). -/
def listMaxD (l : List Int) : Int :=
  match l with
  | [] => 0
  | x :: xs => xs.foldl max x

/-- `polygon.bounds` minimum x. -/
def minXb (r : Region) : Int := listMinD (r.map (fun p => p.1))

/-- `polygon.bounds` minimum y. -/
def minYb (r : Region) : Int := listMinD (r.map (fun p => p.2))

/-- `polygon.bounds` maximum x (right edge of the rightmost pixel). -/
def maxXb (r : Region) : Int := listMaxD (r.map (fun p => p.1 + 1))

/-- `polygon.bounds` maximum y. -/
def maxYb (r : Region) : Int := listMaxD (r.map (fun p => p.2 + 1))

/-- `polygon.intersection(box(x0, y0, x1, y1))` for a box with rational
edges: the pixels lying inside the box (exact when the edges are
integral). -/
def boxInter (r : Region) (x0 y0 x1 y1 : ℚ) : Region :=
  r.filter (fun p => decide (x0 ≤ (p.1 : ℚ) ∧ (p.1 : ℚ) + 1 ≤ x1 ∧
    y0 ≤ (p.2 : ℚ) ∧ (p.2 : ℚ) + 1 ≤ y1))

/-- `np.linspace(lo, hi, n + 1)[i]`. -/
def linstep (lo hi : ℚ) (n i : Nat) : ℚ := lo + (hi - lo) * i / n

/-- The intersection of the polygon with grid cell `(i, j)` of its
`max_cells × max_cells` bounding-box subdivision (the `inter` of the loop
body, lines 57-58). -/
def cellInter (polygon : Region) (max_cells i j : Nat) : Region :=
  boxInter polygon
    (linstep (minXb polygon) (maxXb polygon) max_cells i)
    (linstep (minYb polygon) (maxYb polygon) max_cells j)
    (linstep (minXb polygon) (maxXb polygon) max_cells (i + 1))
    (linstep (minYb polygon) (maxYb polygon) max_cells (j + 1))

/-- The tiles contributed by grid cell `(i, j)` (the body of the double loop
at lines 55-63): nothing for an empty intersection, the intersection itself
when it is a Polygon, its parts when it is a MultiPolygon. -/
def cellTiles (polygon : Region) (max_cells i j : Nat) : List Region :=
  if (cellInter polygon max_cells i j).isEmpty then []
  else if geom_type (cellInter polygon max_cells i j) = "Polygon" then
    [cellInter polygon max_cells i j]
  else if geom_type (cellInter polygon max_cells i j) = "MultiPolygon" then
    geoms (cellInter polygon max_cells i j)
  else []

/-- `split_polygon_grid` (lines 45-64): intersect the polygon with each grid
cell of its bounding box; keep a non-empty intersection as one tile if it is
a Polygon, or as one tile per part if it is a MultiPolygon. -/
def split_polygon_grid (polygon : Region) (max_cells : Nat := 4) :
    List Region :=
  (List.range max_cells).flatMap (fun i =>
    (List.range max_cells).flatMap (fun j =>
      cellTiles polygon max_cells i j))

theorem mem_expand {r s : Region} {x : Pix} :
    x ∈ expand r s ↔ x ∈ r ∧ ∃ q ∈ s, (x = q ∨ adjB x q = true) := by
  unfold expand
  rw [List.mem_filter, List.any_eq_true]
  constructor
  · rintro ⟨hr, q, hq, hor⟩
    rcases Bool.or_eq_true _ _ |>.mp hor with h | h
    · exact ⟨hr, q, hq, Or.inl (of_decide_eq_true h)⟩
    · exact ⟨hr, q, hq, Or.inr h⟩
  · rintro ⟨hr, q, hq, h | h⟩
    · exact ⟨hr, q, hq, Bool.or_eq_true _ _ |>.mpr (Or.inl (decide_eq_true h))⟩
    · exact ⟨hr, q, hq, Bool.or_eq_true _ _ |>.mpr (Or.inr h)⟩

theorem expand_subset {r s : Region} {x : Pix} (h : x ∈ expand r s) :
    x ∈ r := (mem_expand.mp h).1

theorem subset_expand {r s : Region} (hs : ∀ y ∈ s, y ∈ r) :
    ∀ x ∈ s, x ∈ expand r s := by
  intro x hx
  exact mem_expand.mpr ⟨hs x hx, x, hx, Or.inl rfl⟩

theorem expand_mono {r s t : Region} (hst : ∀ y ∈ s, y ∈ t) :
    ∀ x ∈ expand r s, x ∈ expand r t := by
  intro x hx
  obtain ⟨hr, q, hq, hor⟩ := mem_expand.mp hx
  exact mem_expand.mpr ⟨hr, q, hst q hq, hor⟩

theorem expand_congr {r s t : Region} (hst : ∀ y, y ∈ s ↔ y ∈ t) :
    ∀ x, x ∈ expand r s ↔ x ∈ expand r t :=
  fun x => ⟨fun h => expand_mono (fun y hy => (hst y).mp hy) x h,
    fun h => expand_mono (fun y hy => (hst y).mpr hy) x h⟩

theorem expand_nodup {r s : Region} (hr : r.Nodup) : (expand r s).Nodup :=
  hr.filter _

theorem reach_subset {r s : Region} (hs : ∀ y ∈ s, y ∈ r) :
    ∀ n, ∀ x ∈ reach r s n, x ∈ r := by
  intro n
  cases n with
  | zero => exact hs
  | succ n => intro x hx; exact expand_subset hx

theorem reach_succ_mono {r s : Region} (hs : ∀ y ∈ s, y ∈ r) :
    ∀ n, ∀ x ∈ reach r s n, x ∈ reach r s (n + 1) := by
  intro n
  induction n with
  | zero => exact subset_expand hs
  | succ n ih => exact expand_mono ih

theorem reach_mono_fuel {r s : Region} (hs : ∀ y ∈ s, y ∈ r) {m n : Nat}
    (hmn : m ≤ n) : ∀ x ∈ reach r s m, x ∈ reach r s n := by
  induction n with
  | zero =>
    have : m = 0 := Nat.le_zero.mp hmn
    subst this
    exact fun x hx => hx
  | succ n ih =>
    rcases Nat.le_succ_iff.mp hmn with h | h
    · exact fun x hx => reach_succ_mono hs n x (ih h x hx)
    · subst h
      exact fun x hx => hx

theorem reach_nodup {r s : Region} (hr : r.Nodup) (hs : s.Nodup) :
    ∀ n, (reach r s n).Nodup := by
  intro n
  cases n with
  | zero => exact hs
  | succ n => exact expand_nodup hr

/-- Edge-path reachability between pixels inside the region `r`. -/
inductive Reachable (r : Region) : Pix → Pix → Prop where
  | refl {p : Pix} (hp : p ∈ r) : Reachable r p p
  | tail {p q x : Pix} (h : Reachable r p q) (hx : x ∈ r)
      (ha : adjB q x = true) : Reachable r p x

theorem Reachable.mem_left {r : Region} {p q : Pix} (h : Reachable r p q) :
    p ∈ r := by
  induction h with
  | refl hp => exact hp
  | tail _ _ _ ih => exact ih

theorem Reachable.mem_right {r : Region} {p q : Pix} (h : Reachable r p q) :
    q ∈ r := by
  induction h with
  | refl hp => exact hp
  | tail _ hx _ _ => exact hx

theorem Reachable.trans {r : Region} {a b c : Pix} (h1 : Reachable r a b)
    (h2 : Reachable r b c) : Reachable r a c := by
  induction h2 with
  | refl _ => exact h1
  | tail _ hx ha ih => exact Reachable.tail ih hx ha

theorem Reachable.symm {r : Region} {a b : Pix} (h : Reachable r a b) :
    Reachable r b a := by
  induction h with
  | refl hp => exact Reachable.refl hp
  | tail h hx ha ih =>
    exact Reachable.trans
      (Reachable.tail (Reachable.refl hx) h.mem_right (adjB_symm ha)) ih

/-- After `r.length` growth steps the reached set is closed under one more
expansion (the growth chain must have stabilized by then). -/
theorem reach_closed {r : Region} {p : Pix} (hp : p ∈ r) :
    ∀ x ∈ expand r (reach r [p] r.length), x ∈ reach r [p] r.length := by
  have hseed : ∀ y ∈ [p], y ∈ r := by
    intro y hy
    rw [List.mem_singleton] at hy
    subst hy
    exact hp
  -- Finset snapshots of the growth chain
  set S : Nat → Finset Pix := fun n => (reach r [p] n).toFinset with hS
  have hmemS : ∀ n x, x ∈ S n ↔ x ∈ reach r [p] n := by
    intro n x
    rw [hS]
    exact List.mem_toFinset
  have hSmono : ∀ n, S n ⊆ S (n + 1) := by
    intro n x hx
    rw [hmemS] at hx ⊢
    exact reach_succ_mono hseed n x hx
  have hstab1 : ∀ n, S n = S (n + 1) → S (n + 1) = S (n + 2) := by
    intro n h
    apply Finset.ext
    intro x
    rw [hmemS, hmemS]
    show x ∈ expand r (reach r [p] n) ↔ x ∈ expand r (reach r [p] (n + 1))
    apply expand_congr
    intro y
    rw [← hmemS, ← hmemS, h]
  have hcons : ∀ n, S n = S (n + 1) → ∀ k, S (n + k) = S (n + k + 1) := by
    intro n h k
    induction k with
    | zero => exact h
    | succ k ih => exact hstab1 (n + k) ih
  have hstab : ∀ n m, n ≤ m → S n = S (n + 1) → S m = S n := by
    intro n m hnm h
    have haux : ∀ k, S (n + k) = S n := by
      intro k
      induction k with
      | zero => rfl
      | succ k ih =>
        show S (n + k + 1) = S n
        rw [← hcons n h k]
        exact ih
    have : n + (m - n) = m := by omega
    calc S m = S (n + (m - n)) := by rw [this]
    _ = S n := haux (m - n)
  have hbound : ∀ n, (S n).card ≤ r.length := by
    intro n
    have hsub : S n ⊆ r.toFinset := by
      intro x hx
      rw [hmemS] at hx
      rw [List.mem_toFinset]
      exact reach_subset hseed n x hx
    calc (S n).card ≤ r.toFinset.card := Finset.card_le_card hsub
    _ ≤ r.length := r.toFinset_card_le
  have hgrow : ∀ n, (∀ m, m < n → S m ≠ S (m + 1)) → n + 1 ≤ (S n).card := by
    intro n
    induction n with
    | zero =>
      intro _
      have : p ∈ S 0 := by
        rw [hmemS]
        exact List.mem_singleton_self p
      calc 1 = ({p} : Finset Pix).card := by simp
      _ ≤ (S 0).card := Finset.card_le_card (by
        intro x hx
        rw [Finset.mem_singleton] at hx
        subst hx
        exact this)
    | succ n ih =>
      intro h
      have h1 : n + 1 ≤ (S n).card := ih (fun m hm => h m (by omega))
      have h2 : S n ≠ S (n + 1) := h n (by omega)
      have h3 : S n ⊂ S (n + 1) := ssubset_of_subset_of_ne (hSmono n) h2
      have := Finset.card_lt_card h3
      omega
  have hex : ∃ m, m ≤ r.length ∧ S m = S (m + 1) := by
    by_contra hc
    push_neg at hc
    have : r.length + 1 ≤ (S r.length).card :=
      hgrow r.length (fun m hm => hc m (by omega))
    have := hbound r.length
    omega
  obtain ⟨m, hm, hfix⟩ := hex
  have h1 : S r.length = S m := hstab m r.length hm hfix
  have h2 : S (r.length + 1) = S m := hstab m (r.length + 1) (by omega) hfix
  intro x hx
  have : x ∈ reach r [p] (r.length + 1) := hx
  rw [← hmemS] at this ⊢
  rw [h2] at this
  rw [h1]
  exact this

/-- Completeness: every pixel reached by growth is path-reachable from the
seed. -/
theorem reachable_of_mem_reach {r s : Region} (hs : ∀ y ∈ s, y ∈ r) :
    ∀ n x, x ∈ reach r s n → ∃ p ∈ s, Reachable r p x := by
  intro n
  induction n with
  | zero =>
    intro x hx
    exact ⟨x, hx, Reachable.refl (hs x hx)⟩
  | succ n ih =>
    intro x hx
    obtain ⟨hxr, q, hq, hor⟩ := mem_expand.mp hx
    obtain ⟨p0, hp0, hreach⟩ := ih q hq
    rcases hor with rfl | hadj
    · exact ⟨p0, hp0, hreach⟩
    · exact ⟨p0, hp0, Reachable.tail hreach hxr (adjB_symm hadj)⟩

/-- Soundness: every path-reachable pixel is reached within `r.length`
growth steps. -/
theorem mem_reach_of_reachable {r : Region} {p x : Pix}
    (h : Reachable r p x) : x ∈ reach r [p] r.length := by
  induction h with
  | refl hp =>
    exact reach_mono_fuel
      (by intro y hy; rw [List.mem_singleton] at hy; subst hy; exact hp)
      (Nat.zero_le _) _ (List.mem_singleton_self _)
  | tail h hx ha ih =>
    apply reach_closed h.mem_left
    exact mem_expand.mpr ⟨hx, _, ih, Or.inr (adjB_symm ha)⟩

/-- A region in which all pixel pairs are path-connected is a single
`shapely` Polygon. -/
theorem connectedB_of_reachable {r : Region}
    (h : ∀ x ∈ r, ∀ y ∈ r, Reachable r x y) : connectedB r = true := by
  cases hrr : r with
  | nil => rfl
  | cons p rest =>
    show (p :: rest).all
      (fun q => decide (q ∈ reach (p :: rest) [p] (p :: rest).length)) = true
    rw [List.all_eq_true]
    intro q hq
    rw [decide_eq_true_eq]
    subst hrr
    exact mem_reach_of_reachable (h p (List.mem_cons_self p rest) q hq)

/-! ### Integer-scaled evaluation forms

The rational grid arithmetic above follows `np.linspace` literally, but
Mathlib's `ℚ` instances do not reduce definitionally, so concrete instances
cannot be computed from it directly. The `...Z` forms below clear the
denominator `max_cells` from every comparison; they are proved equal to the
rational forms and are used whenever a theorem needs a concrete
evaluation. -/

/-- `cellInter` with the denominator `max_cells` cleared out of every
comparison. -/
def cellInterZ (p : Region) (n i j : Nat) : Region :=
  p.filter (fun q => decide (
    ((n : Int) * minXb p + (maxXb p - minXb p) * (i : Int) ≤ q.1 * n) ∧
    ((q.1 + 1) * n ≤ (n : Int) * minXb p + (maxXb p - minXb p) * ((i : Int) + 1)) ∧
    ((n : Int) * minYb p + (maxYb p - minYb p) * (j : Int) ≤ q.2 * n) ∧
    ((q.2 + 1) * n ≤ (n : Int) * minYb p + (maxYb p - minYb p) * ((j : Int) + 1))))

/-- `cellTiles` over the scaled intersection, with the `geom_type` string
comparison resolved to the connectivity test. -/
def cellTilesZ (p : Region) (n i j : Nat) : List Region :=
  if (cellInterZ p n i j).isEmpty then []
  else if connectedB (cellInterZ p n i j) then [cellInterZ p n i j]
  else geoms (cellInterZ p n i j)

/-- `split_polygon_grid` over the scaled intersections. -/
def splitZ (p : Region) (n : Nat) : List Region :=
  (List.range n).flatMap (fun i =>
    (List.range n).flatMap (fun j => cellTilesZ p n i j))

theorem linstep_frac (lo hi : Int) (n i : Nat) (h : 0 < n) :
    linstep (lo : ℚ) (hi : ℚ) n i =
      ((n * lo + (hi - lo) * (i : Int) : Int) : ℚ) / (n : ℚ) := by
  have hn : (n : ℚ) ≠ 0 := by
    have : (0 : ℚ) < (n : ℚ) := by exact_mod_cast h
    exact ne_of_gt this
  unfold linstep
  field_simp
  push_cast
  ring

theorem linstep_le_iff (lo hi a : Int) (n i : Nat) (hn : 0 < n) :
    (linstep (lo : ℚ) (hi : ℚ) n i ≤ (a : ℚ)) ↔
      ((n : Int) * lo + (hi - lo) * (i : Int) ≤ a * n) := by
  have hn' : (0 : ℚ) < (n : ℚ) := by exact_mod_cast hn
  rw [linstep_frac lo hi n i hn, div_le_iff hn']
  exact_mod_cast Iff.rfl

theorem le_linstep_iff (lo hi a : Int) (n i : Nat) (hn : 0 < n) :
    ((a : ℚ) ≤ linstep (lo : ℚ) (hi : ℚ) n i) ↔
      (a * n ≤ (n : Int) * lo + (hi - lo) * (i : Int)) := by
  have hn' : (0 : ℚ) < (n : ℚ) := by exact_mod_cast hn
  rw [linstep_frac lo hi n i hn, le_div_iff hn']
  exact_mod_cast Iff.rfl

theorem cellInterZ_eq {p : Region} {n i j : Nat} (hn : 0 < n) :
    cellInter p n i j = cellInterZ p n i j := by
  unfold cellInter boxInter cellInterZ
  apply List.filter_congr
  intro q _
  rw [decide_eq_decide]
  have h1 := linstep_le_iff (minXb p) (maxXb p) q.1 n i hn
  have h2 := le_linstep_iff (minXb p) (maxXb p) (q.1 + 1) n (i + 1) hn
  have h3 := linstep_le_iff (minYb p) (maxYb p) q.2 n j hn
  have h4 := le_linstep_iff (minYb p) (maxYb p) (q.2 + 1) n (j + 1) hn
  have e2 : ((q.1 : ℚ) + 1) = ((q.1 + 1 : Int) : ℚ) := by push_cast; ring
  have e4 : ((q.2 : ℚ) + 1) = ((q.2 + 1 : Int) : ℚ) := by push_cast; ring
  have e5 : (((i + 1 : Nat)) : Int) = (i : Int) + 1 := by push_cast; ring
  have e6 : (((j + 1 : Nat)) : Int) = (j : Int) + 1 := by push_cast; ring
  rw [e2, e4]
  rw [h1, h3]
  rw [h2, h4, e5, e6]

theorem cellTiles_eq_Z {p : Region} {n i j : Nat} (hn : 0 < n) :
    cellTiles p n i j = cellTilesZ p n i j := by
  unfold cellTiles cellTilesZ geom_type
  rw [cellInterZ_eq hn]
  by_cases hc : connectedB (cellInterZ p n i j)
  · simp [hc]
  · rw [Bool.not_eq_true] at hc
    simp [hc]

theorem split_eq_splitZ (p : Region) (n : Nat) (hn : 0 < n) :
    split_polygon_grid p n = splitZ p n := by
  unfold split_polygon_grid splitZ
  have h : (fun i => (List.range n).flatMap (fun j => cellTiles p n i j)) =
      (fun i => (List.range n).flatMap (fun j => cellTilesZ p n i j)) := by
    funext i
    have h2 : (fun j => cellTiles p n i j) =
        (fun j => cellTilesZ p n i j) := by
      funext j
      exact cellTiles_eq_Z hn
    rw [h2]
  rw [h]

/-- Pixels path-reachable (in `r`) from a point of an expansion-closed set
stay inside that set, by a path inside that set. -/
theorem reachable_in_closed {r c : Region}
    (hcl : ∀ u ∈ expand r c, u ∈ c) {p : Pix} (hp : p ∈ c) :
    ∀ {x : Pix}, Reachable r p x → x ∈ c ∧ Reachable c p x := by
  intro x h
  induction h with
  | refl _ => exact ⟨hp, Reachable.refl hp⟩
  | tail h hx ha ih =>
    obtain ⟨hqc, hpq⟩ := ih
    have hxc : _ ∈ c := hcl _ (mem_expand.mpr ⟨hx, _, hqc, Or.inr (adjB_symm ha)⟩)
    exact ⟨hxc, Reachable.tail hpq hxc ha⟩

/-- Every component produced by `componentsAux` is a non-empty single
`shapely` Polygon. -/
theorem componentsAux_spec :
    ∀ (fuel : Nat) (r : Region), ∀ c ∈ componentsAux fuel r,
      c ≠ [] ∧ connectedB c = true := by
  intro fuel
  induction fuel with
  | zero => intro r c hc; simp [componentsAux] at hc
  | succ fuel ih =>
    intro r c hc
    cases r with
    | nil => simp [componentsAux] at hc
    | cons p rest =>
      rw [componentsAux, List.mem_cons] at hc
      rcases hc with rfl | hc
      · -- the saturated component of the head pixel
        have hp : p ∈ p :: rest := List.mem_cons_self p rest
        have hseed : ∀ y ∈ [p], y ∈ p :: rest := by
          intro y hy
          rw [List.mem_singleton] at hy
          subst hy
          exact hp
        have hpc : p ∈ reach (p :: rest) [p] (p :: rest).length :=
          reach_mono_fuel hseed (Nat.zero_le _) p (List.mem_singleton_self p)
        have hcl := @reach_closed (p :: rest) p hp
        have hconn : connectedB
            (reach (p :: rest) [p] (p :: rest).length) = true := by
          apply connectedB_of_reachable
          intro x hx y hy
          obtain ⟨px, hpx, hrx⟩ := reachable_of_mem_reach hseed _ x hx
          obtain ⟨py, hpy, hry⟩ := reachable_of_mem_reach hseed _ y hy
          rw [List.mem_singleton] at hpx hpy
          subst hpx; subst hpy
          have hix := reachable_in_closed hcl hpc hrx
          have hiy := reachable_in_closed hcl hpc hry
          exact Reachable.trans hix.2.symm hiy.2
        refine ⟨?_, hconn⟩
        intro hnil
        rw [hnil] at hpc
        simp at hpc
      · exact ih _ c hc

/-- C9: every tile returned by `split_polygon_grid` is a non-empty region of
geometry type Polygon — MultiPolygon cell intersections are exploded into
their parts, so downstream `p.exterior.coords` (line 100) is well-defined on
each tile. (Degenerate line/point intersections have no counterpart in the
pixel model: an intersection there is either empty or has positive area.) -/
theorem c9_split_tiles_are_polygons (polygon : Region) (max_cells : Nat) :
    ∀ t ∈ split_polygon_grid polygon max_cells,
      t ≠ [] ∧ geom_type t = "Polygon" := by
  intro t ht
  unfold split_polygon_grid at ht
  rw [List.mem_flatMap] at ht
  obtain ⟨i, _, ht⟩ := ht
  rw [List.mem_flatMap] at ht
  obtain ⟨j, _, ht⟩ := ht
  unfold cellTiles at ht
  by_cases hemp : (cellInter polygon max_cells i j).isEmpty
  · rw [if_pos hemp] at ht
    simp at ht
  · rw [if_neg hemp] at ht
    by_cases hpoly : geom_type (cellInter polygon max_cells i j) = "Polygon"
    · rw [if_pos hpoly] at ht
      rw [List.mem_singleton] at ht
      subst ht
      refine ⟨?_, hpoly⟩
      intro hnil
      rw [hnil] at hemp
      exact hemp rfl
    · rw [if_neg hpoly] at ht
      by_cases hmulti : geom_type (cellInter polygon max_cells i j) =
          "MultiPolygon"
      · rw [if_pos hmulti] at ht
        obtain ⟨hne, hconn⟩ := componentsAux_spec _ _ t ht
        refine ⟨hne, ?_⟩
        unfold geom_type
        rw [if_pos hconn]
      · rw [if_neg hmulti] at ht
        simp at ht

/-- The filled `n × n` pixel square with lower-left corner at the origin (a
square polygon equal to its own bounding box). -/
def squareRegion (n : Nat) : Region :=
  (List.range n).flatMap (fun a =>
    (List.range n).map (fun b => (Int.ofNat a, Int.ofNat b)))

/-- A 12 × 12 square with a width-1 notch at column `[1, 2]` descending from
the top edge to `y = 4`. The polygon's internal edges (`x = 1`, `x = 2`,
`y = 4`) avoid the 4 × 4 grid lines (`x, y ∈ {3, 6, 9}`), so every grid-cell
intersection is a pure-area Polygon or MultiPolygon (no degenerate pieces);
the two cells `[0,3] × [6,9]` and `[0,3] × [9,12]` are each split by the
notch into two fragments. -/
def notchedSquare : Region :=
  (List.range 12).flatMap (fun a =>
    (List.range 12).filterMap (fun b =>
      if a = 1 ∧ 4 ≤ b then none
      else some ((a : Int), (b : Int))))

set_option maxRecDepth 200000 in
/-- C3 counterexample: splitting the notched square with the default
`max_cells = 4` yields 18 tiles — more than `4 * 4 = 16` — because the two
cells whose intersection is a MultiPolygon contribute one tile per
fragment. -/
theorem c3_counterexample :
    (split_polygon_grid notchedSquare 4).length = 18 ∧
    ¬ ((split_polygon_grid notchedSquare 4).length ≤ 4 * 4) := by
  rw [split_eq_splitZ _ _ (by omega)]
  decide

theorem flatMap_length_le {α β : Type} (l : List α) (f : α → List β) (k : Nat)
    (h : ∀ x ∈ l, (f x).length ≤ k) :
    (l.flatMap f).length ≤ l.length * k := by
  induction l with
  | nil => simp
  | cons x xs ih =>
    rw [List.flatMap_cons, List.length_append, List.length_cons]
    have h1 := h x (List.mem_cons_self x xs)
    have h2 := ih (fun y hy => h y (List.mem_cons_of_mem _ hy))
    rw [Nat.succ_mul]
    omega

/-- C3 (amended): `split_polygon_grid` emits one tile per connected fragment
of each cell intersection, so when every non-empty cell intersection is a
single connected Polygon the tile count is at most `max_cells * max_cells`;
a polygon with a MultiPolygon cell intersection can exceed that bound. -/
theorem c3_tile_bound (p : Region) (n : Nat)
    (h : ∀ i, i < n → ∀ j, j < n →
      connectedB (cellInter p n i j) = true) :
    (split_polygon_grid p n).length ≤ n * n := by
  unfold split_polygon_grid
  have houter : ∀ i ∈ List.range n,
      ((List.range n).flatMap (fun j => cellTiles p n i j)).length ≤ n := by
    intro i hi
    rw [List.mem_range] at hi
    have hinner : ∀ j ∈ List.range n, (cellTiles p n i j).length ≤ 1 := by
      intro j hj
      rw [List.mem_range] at hj
      unfold cellTiles
      by_cases hemp : (cellInter p n i j).isEmpty
      · rw [if_pos hemp]
        simp
      · rw [if_neg hemp]
        have hc := h i hi j hj
        unfold geom_type
        rw [if_pos hc]
        simp
    have := flatMap_length_le (List.range n) _ 1 hinner
    simpa using this
  have := flatMap_length_le (List.range n) _ n houter
  simpa using this

/-- C3 witness: a filled 4 × 4 square split with the default grid stays
within the 16-tile bound. -/
theorem c3_tile_bound_witness :
    (split_polygon_grid (squareRegion 4) 4).length ≤ 4 * 4 :=
  c3_tile_bound (squareRegion 4) 4 (by
    have hz : ∀ i, i < 4 → ∀ j, j < 4 →
        connectedB (cellInterZ (squareRegion 4) 4 i j) = true := by decide
    intro i hi j hj
    rw [cellInterZ_eq (by omega)]
    exact hz i hi j hj)

theorem listMinD_eq {l : List Int} {lo : Int} (hmem : lo ∈ l)
    (hall : ∀ y ∈ l, lo ≤ y) : listMinD l = lo := by
  cases l with
  | nil => simp at hmem
  | cons x xs =>
    show xs.foldl min x = lo
    apply le_antisymm
    · rcases List.mem_cons.mp hmem with rfl | hmem'
      · exact foldl_min_le_init xs lo
      · exact foldl_min_le_mem xs x lo hmem'
    · rcases foldl_min_mem xs x with h | h
      · rw [h]; exact hall x (List.mem_cons_self x xs)
      · exact hall _ (List.mem_cons_of_mem x h)

theorem listMaxD_eq {l : List Int} {hi : Int} (hmem : hi ∈ l)
    (hall : ∀ y ∈ l, y ≤ hi) : listMaxD l = hi := by
  cases l with
  | nil => simp at hmem
  | cons x xs =>
    show xs.foldl max x = hi
    apply le_antisymm
    · rcases foldl_max_mem xs x with h | h
      · rw [h]; exact hall x (List.mem_cons_self x xs)
      · exact hall _ (List.mem_cons_of_mem x h)
    · rcases List.mem_cons.mp hmem with rfl | hmem'
      · exact le_foldl_max_init xs hi
      · exact le_foldl_max_mem xs x hi hmem'

theorem mem_squareRegion {n : Nat} {q : Pix} :
    q ∈ squareRegion n ↔
      0 ≤ q.1 ∧ q.1 < (n : Int) ∧ 0 ≤ q.2 ∧ q.2 < (n : Int) := by
  unfold squareRegion
  rw [List.mem_flatMap]
  constructor
  · rintro ⟨a, ha, hq⟩
    obtain ⟨b, hb, rfl⟩ := List.mem_map.mp hq
    rw [List.mem_range] at ha hb
    refine ⟨Int.ofNat_nonneg a, ?_, Int.ofNat_nonneg b, ?_⟩
    · show (Int.ofNat a : Int) < (n : Int)
      rw [Int.ofNat_eq_natCast]
      exact_mod_cast ha
    · show (Int.ofNat b : Int) < (n : Int)
      rw [Int.ofNat_eq_natCast]
      exact_mod_cast hb
  · rintro ⟨h1, h2, h3, h4⟩
    refine ⟨q.1.toNat, ?_, ?_⟩
    · rw [List.mem_range]
      omega
    · apply List.mem_map.mpr
      refine ⟨q.2.toNat, ?_, ?_⟩
      · rw [List.mem_range]
        omega
      · cases q with
        | mk qa qb =>
          simp only [Int.ofNat_eq_natCast] at h1 h2 h3 h4 ⊢
          rw [Prod.mk.injEq]
          constructor
          · omega
          · omega

theorem squareRegion_mem_corner {n : Nat} (hn : 0 < n) :
    ((0 : Int), (0 : Int)) ∈ squareRegion n := by
  rw [mem_squareRegion]
  have : (0 : Int) < (n : Int) := by exact_mod_cast hn
  exact ⟨le_refl 0, this, le_refl 0, this⟩

theorem minXb_squareRegion {n : Nat} (hn : 0 < n) :
    minXb (squareRegion n) = 0 := by
  unfold minXb
  apply listMinD_eq
  · rw [List.mem_map]
    exact ⟨_, squareRegion_mem_corner hn, rfl⟩
  · intro y hy
    rw [List.mem_map] at hy
    obtain ⟨p, hp, rfl⟩ := hy
    exact (mem_squareRegion.mp hp).1

theorem minYb_squareRegion {n : Nat} (hn : 0 < n) :
    minYb (squareRegion n) = 0 := by
  unfold minYb
  apply listMinD_eq
  · rw [List.mem_map]
    exact ⟨_, squareRegion_mem_corner hn, rfl⟩
  · intro y hy
    rw [List.mem_map] at hy
    obtain ⟨p, hp, rfl⟩ := hy
    exact (mem_squareRegion.mp hp).2.2.1

theorem squareRegion_mem_top {n : Nat} (hn : 0 < n) :
    (((n : Int) - 1), ((n : Int) - 1)) ∈ squareRegion n := by
  rw [mem_squareRegion]
  have : (1 : Int) ≤ (n : Int) := by exact_mod_cast hn
  exact ⟨by omega, by omega, by omega, by omega⟩

theorem maxXb_squareRegion {n : Nat} (hn : 0 < n) :
    maxXb (squareRegion n) = (n : Int) := by
  unfold maxXb
  apply listMaxD_eq
  · rw [List.mem_map]
    refine ⟨_, squareRegion_mem_top hn, ?_⟩
    show ((n : Int) - 1) + 1 = (n : Int)
    omega
  · intro y hy
    rw [List.mem_map] at hy
    obtain ⟨p, hp, rfl⟩ := hy
    have := (mem_squareRegion.mp hp).2.1
    omega

theorem maxYb_squareRegion {n : Nat} (hn : 0 < n) :
    maxYb (squareRegion n) = (n : Int) := by
  unfold maxYb
  apply listMaxD_eq
  · rw [List.mem_map]
    refine ⟨_, squareRegion_mem_top hn, ?_⟩
    show ((n : Int) - 1) + 1 = (n : Int)
    omega
  · intro y hy
    rw [List.mem_map] at hy
    obtain ⟨p, hp, rfl⟩ := hy
    have := (mem_squareRegion.mp hp).2.2.2
    omega

/-- Any two pixels of a full rectangular block are path-connected inside
it: walk along x, then along y. -/
theorem reachable_of_box {r : Region} {x0 x1 y0 y1 : Int}
    (hchar : ∀ p : Pix, p ∈ r ↔
      (x0 ≤ p.1 ∧ p.1 < x1 ∧ y0 ≤ p.2 ∧ p.2 < y1)) :
    ∀ u ∈ r, ∀ v ∈ r, Reachable r u v := by
  have hadjx : ∀ (a y : Int), adjB (a, y) (a + 1, y) = true := by
    intro a y
    simp [adjB]
  have hadjx' : ∀ (a y : Int), adjB (a, y) (a - 1, y) = true := by
    intro a y
    simp [adjB]
  have hadjy : ∀ (x b : Int), adjB (x, b) (x, b + 1) = true := by
    intro x b
    simp [adjB]
  have hadjy' : ∀ (x b : Int), adjB (x, b) (x, b - 1) = true := by
    intro x b
    simp [adjB]
  have walkX : ∀ (d : Nat) (a b y : Int), (a, y) ∈ r → (b, y) ∈ r →
      (b - a).natAbs = d → Reachable r (a, y) (b, y) := by
    intro d
    induction d with
    | zero =>
      intro a b y ha hb hd
      have : b = a := by omega
      subst this
      exact Reachable.refl ha
    | succ d ih =>
      intro a b y ha hb hd
      rw [hchar] at ha hb
      rcases lt_or_ge a b with hab | hab
      · have hmem : (a + 1, y) ∈ r := by
          rw [hchar]
          simp only
          omega
        have hstep : Reachable r (a, y) (a + 1, y) :=
          Reachable.tail (Reachable.refl (by rw [hchar]; simp only; omega))
            hmem (hadjx a y)
        exact Reachable.trans hstep
          (ih (a + 1) b y hmem (by rw [hchar]; simp only; omega) (by omega))
      · have hba : b < a := by omega
        have hmem : (a - 1, y) ∈ r := by
          rw [hchar]
          simp only
          omega
        have hstep : Reachable r (a, y) (a - 1, y) :=
          Reachable.tail (Reachable.refl (by rw [hchar]; simp only; omega))
            hmem (hadjx' a y)
        exact Reachable.trans hstep
          (ih (a - 1) b y hmem (by rw [hchar]; simp only; omega) (by omega))
  have walkY : ∀ (d : Nat) (x a b : Int), (x, a) ∈ r → (x, b) ∈ r →
      (b - a).natAbs = d → Reachable r (x, a) (x, b) := by
    intro d
    induction d with
    | zero =>
      intro x a b ha hb hd
      have : b = a := by omega
      subst this
      exact Reachable.refl ha
    | succ d ih =>
      intro x a b ha hb hd
      rw [hchar] at ha hb
      rcases lt_or_ge a b with hab | hab
      · have hmem : (x, a + 1) ∈ r := by
          rw [hchar]
          simp only
          omega
        have hstep : Reachable r (x, a) (x, a + 1) :=
          Reachable.tail (Reachable.refl (by rw [hchar]; simp only; omega))
            hmem (hadjy x a)
        exact Reachable.trans hstep
          (ih x (a + 1) b hmem (by rw [hchar]; simp only; omega) (by omega))
      · have hba : b < a := by omega
        have hmem : (x, a - 1) ∈ r := by
          rw [hchar]
          simp only
          omega
        have hstep : Reachable r (x, a) (x, a - 1) :=
          Reachable.tail (Reachable.refl (by rw [hchar]; simp only; omega))
            hmem (hadjy' x a)
        exact Reachable.trans hstep
          (ih x (a - 1) b hmem (by rw [hchar]; simp only; omega) (by omega))
  intro u hu v hv
  have hu' := (hchar u).mp hu
  have hv' := (hchar v).mp hv
  have hmid : (v.1, u.2) ∈ r := by
    rw [hchar]
    simp only
    omega
  have h1 : Reachable r (u.1, u.2) (v.1, u.2) :=
    walkX (v.1 - u.1).natAbs u.1 v.1 u.2 (by
      cases u with
      | mk ua ub => exact hu) hmid rfl
  have h2 : Reachable r (v.1, u.2) (v.1, v.2) :=
    walkY (v.2 - u.2).natAbs v.1 u.2 v.2 hmid (by
      cases v with
      | mk va vb => exact hv) rfl
  have h12 := Reachable.trans h1 h2
  cases u with
  | mk ua ub =>
    cases v with
    | mk va vb => exact h12

/-- Membership in a quadrant of the even-sided square: the scaled grid
comparisons reduce to quarter-box bounds. -/
theorem mem_cellInterZ_square {k i j : Nat} (hk : 1 ≤ k) (hi : i ≤ 1)
    (hj : j ≤ 1) {q : Pix} :
    q ∈ cellInterZ (squareRegion (2 * k)) 2 i j ↔
      ((i : Int) * k ≤ q.1 ∧ q.1 < ((i : Int) + 1) * k ∧
       (j : Int) * k ≤ q.2 ∧ q.2 < ((j : Int) + 1) * k) := by
  have hk2 : 0 < 2 * k := by omega
  have hik : (0 : Int) ≤ (i : Int) * k :=
    mul_nonneg (Int.natCast_nonneg i) (Int.natCast_nonneg k)
  have hjk : (0 : Int) ≤ (j : Int) * k :=
    mul_nonneg (Int.natCast_nonneg j) (Int.natCast_nonneg k)
  have hi2 : ((i : Int) + 1) * k ≤ 2 * k := by
    have h1 : ((i : Int) + 1) ≤ 2 := by
      have : (i : Int) ≤ 1 := by exact_mod_cast hi
      omega
    exact mul_le_mul_of_nonneg_right h1 (Int.natCast_nonneg k)
  have hj2 : ((j : Int) + 1) * k ≤ 2 * k := by
    have h1 : ((j : Int) + 1) ≤ 2 := by
      have : (j : Int) ≤ 1 := by exact_mod_cast hj
      omega
    exact mul_le_mul_of_nonneg_right h1 (Int.natCast_nonneg k)
  unfold cellInterZ
  simp only [List.mem_filter, decide_eq_true_eq, mem_squareRegion,
    minXb_squareRegion hk2, maxXb_squareRegion hk2,
    minYb_squareRegion hk2, maxYb_squareRegion hk2]
  push_cast
  constructor
  · rintro ⟨⟨hs1, hs2, hs3, hs4⟩, hb1, hb2, hb3, hb4⟩
    refine ⟨by nlinarith, by nlinarith, by nlinarith, by nlinarith⟩
  · rintro ⟨hb1, hb2, hb3, hb4⟩
    refine ⟨⟨by nlinarith, by nlinarith, by nlinarith, by nlinarith⟩,
      by nlinarith, by nlinarith, by nlinarith, by nlinarith⟩

theorem quadrant_corner_mem {k i j : Nat} (hk : 1 ≤ k) (hi : i ≤ 1)
    (hj : j ≤ 1) :
    ((i : Int) * k, (j : Int) * k) ∈
      cellInterZ (squareRegion (2 * k)) 2 i j := by
  rw [mem_cellInterZ_square hk hi hj]
  have hkpos : (1 : Int) ≤ (k : Int) := by exact_mod_cast hk
  have e1 : ((i : Int) + 1) * k = (i : Int) * k + k := by ring
  have e2 : ((j : Int) + 1) * k = (j : Int) * k + k := by ring
  simp only
  constructor
  · exact le_refl _
  constructor
  · rw [e1]; omega
  constructor
  · exact le_refl _
  · rw [e2]; omega

theorem quadrant_tiles {k i j : Nat} (hk : 1 ≤ k) (hi : i ≤ 1) (hj : j ≤ 1) :
    cellTilesZ (squareRegion (2 * k)) 2 i j =
      [cellInterZ (squareRegion (2 * k)) 2 i j] := by
  have hmem := quadrant_corner_mem hk hi hj
  have hne : cellInterZ (squareRegion (2 * k)) 2 i j ≠ [] := by
    intro h
    rw [h] at hmem
    simp at hmem
  have hemp : (cellInterZ (squareRegion (2 * k)) 2 i j).isEmpty = false := by
    cases hc : cellInterZ (squareRegion (2 * k)) 2 i j with
    | nil => exact absurd hc hne
    | cons a l => rfl
  have hconn : connectedB (cellInterZ (squareRegion (2 * k)) 2 i j) = true := by
    apply connectedB_of_reachable
    exact reachable_of_box (fun p => mem_cellInterZ_square hk hi hj)
  unfold cellTilesZ
  rw [hemp, hconn]
  simp

set_option maxHeartbeats 1000000 in
/-- C4: splitting an even-sided square polygon (one equal to its own
bounding box) with `max_cells = 2` yields exactly 4 pairwise-disjoint tiles
whose union is exactly the original square. -/
theorem c4_square_split (k : Nat) (hk : 1 ≤ k) :
    (split_polygon_grid (squareRegion (2 * k)) 2).length = 4 ∧
    List.Pairwise (fun t u => ∀ x, x ∈ t → x ∉ u)
      (split_polygon_grid (squareRegion (2 * k)) 2) ∧
    (∀ x : Pix, x ∈ squareRegion (2 * k) ↔
      ∃ t ∈ split_polygon_grid (squareRegion (2 * k)) 2, x ∈ t) := by
  have hsplit : split_polygon_grid (squareRegion (2 * k)) 2 =
      [cellInterZ (squareRegion (2 * k)) 2 0 0,
       cellInterZ (squareRegion (2 * k)) 2 0 1,
       cellInterZ (squareRegion (2 * k)) 2 1 0,
       cellInterZ (squareRegion (2 * k)) 2 1 1] := by
    rw [split_eq_splitZ _ _ (by omega)]
    unfold splitZ
    rw [show List.range 2 = [0, 1] from rfl]
    simp only [List.flatMap_cons, List.flatMap_nil, List.append_nil]
    rw [quadrant_tiles hk (by omega) (by omega),
      quadrant_tiles hk (by omega) (by omega),
      quadrant_tiles hk (by omega) (by omega),
      quadrant_tiles hk (by omega) (by omega)]
    simp only [List.cons_append, List.nil_append]
  have hdisj : ∀ (i j i' j' : Nat), i ≤ 1 → j ≤ 1 → i' ≤ 1 → j' ≤ 1 →
      (i, j) ≠ (i', j') →
      ∀ x, x ∈ cellInterZ (squareRegion (2 * k)) 2 i j →
        x ∉ cellInterZ (squareRegion (2 * k)) 2 i' j' := by
    intro i j i' j' hi hj hi' hj' hne x hx hx'
    rw [mem_cellInterZ_square hk hi hj] at hx
    rw [mem_cellInterZ_square hk hi' hj'] at hx'
    obtain ⟨a1, a2, a3, a4⟩ := hx
    obtain ⟨b1, b2, b3, b4⟩ := hx'
    have hkpos : (1 : Int) ≤ (k : Int) := by exact_mod_cast hk
    have hii' : (i : Int) = i' ∧ (j : Int) = j' → False := by
      rintro ⟨e1, e2⟩
      have : i = i' := by exact_mod_cast e1
      have : j = j' := by exact_mod_cast e2
      apply hne
      subst_vars
      rfl
    have e1 : ((i : Int) + 1) * k = (i : Int) * k + k := by ring
    have e2 : ((j : Int) + 1) * k = (j : Int) * k + k := by ring
    have e3 : ((i' : Int) + 1) * k = (i' : Int) * k + k := by ring
    have e4 : ((j' : Int) + 1) * k = (j' : Int) * k + k := by ring
    have hiv : (i : Int) ≤ 1 := by exact_mod_cast hi
    have hjv : (j : Int) ≤ 1 := by exact_mod_cast hj
    have hiv' : (i' : Int) ≤ 1 := by exact_mod_cast hi'
    have hjv' : (j' : Int) ≤ 1 := by exact_mod_cast hj'
    have hiv0 : (0 : Int) ≤ (i : Int) := Int.natCast_nonneg i
    have hjv0 : (0 : Int) ≤ (j : Int) := Int.natCast_nonneg j
    have hiv0' : (0 : Int) ≤ (i' : Int) := Int.natCast_nonneg i'
    have hjv0' : (0 : Int) ≤ (j' : Int) := Int.natCast_nonneg j'
    -- the quadrant indices are forced equal by the pixel bounds
    apply hii'
    constructor
    · by_contra hc
      have : (i : Int) < i' ∨ (i' : Int) < i := by omega
      rcases this with h | h
      · have : (i : Int) + 1 ≤ i' := by omega
        have := mul_le_mul_of_nonneg_right this (by omega : (0 : Int) ≤ k)
        nlinarith
      · have : (i' : Int) + 1 ≤ i := by omega
        have := mul_le_mul_of_nonneg_right this (by omega : (0 : Int) ≤ k)
        nlinarith
    · by_contra hc
      have : (j : Int) < j' ∨ (j' : Int) < j := by omega
      rcases this with h | h
      · have : (j : Int) + 1 ≤ j' := by omega
        have := mul_le_mul_of_nonneg_right this (by omega : (0 : Int) ≤ k)
        nlinarith
      · have : (j' : Int) + 1 ≤ j := by omega
        have := mul_le_mul_of_nonneg_right this (by omega : (0 : Int) ≤ k)
        nlinarith
  refine ⟨by rw [hsplit]; rfl, ?_, ?_⟩
  · rw [hsplit]
    refine List.Pairwise.cons ?_ (List.Pairwise.cons ?_
      (List.Pairwise.cons ?_ (List.Pairwise.cons ?_ List.Pairwise.nil)))
    · intro t ht
      simp only [List.mem_cons, List.not_mem_nil, or_false] at ht
      rcases ht with rfl | rfl | rfl
      · exact hdisj 0 0 0 1 (by omega) (by omega) (by omega) (by omega)
          (by decide)
      · exact hdisj 0 0 1 0 (by omega) (by omega) (by omega) (by omega)
          (by decide)
      · exact hdisj 0 0 1 1 (by omega) (by omega) (by omega) (by omega)
          (by decide)
    · intro t ht
      simp only [List.mem_cons, List.not_mem_nil, or_false] at ht
      rcases ht with rfl | rfl
      · exact hdisj 0 1 1 0 (by omega) (by omega) (by omega) (by omega)
          (by decide)
      · exact hdisj 0 1 1 1 (by omega) (by omega) (by omega) (by omega)
          (by decide)
    · intro t ht
      simp only [List.mem_cons, List.not_mem_nil, or_false] at ht
      subst ht
      exact hdisj 1 0 1 1 (by omega) (by omega) (by omega) (by omega)
        (by decide)
    · intro t ht
      simp at ht
  · intro x
    rw [hsplit]
    constructor
    · intro hx
      have hx' := mem_squareRegion.mp hx
      have hkpos : (1 : Int) ≤ (k : Int) := by exact_mod_cast hk
      have hcast : ((2 * k : Nat) : Int) = 2 * (k : Int) := by push_cast; ring
      rw [hcast] at hx'
      obtain ⟨h1, h2, h3, h4⟩ := hx'
      rcases lt_or_ge x.1 (k : Int) with hxlt | hxge
      · rcases lt_or_ge x.2 (k : Int) with hylt | hyge
        · refine ⟨cellInterZ (squareRegion (2 * k)) 2 0 0, by simp, ?_⟩
          rw [mem_cellInterZ_square hk (by omega) (by omega)]
          push_cast
          constructor
          · linarith
          constructor
          · linarith
          constructor
          · linarith
          · linarith
        · refine ⟨cellInterZ (squareRegion (2 * k)) 2 0 1, by simp, ?_⟩
          rw [mem_cellInterZ_square hk (by omega) (by omega)]
          push_cast
          constructor
          · linarith
          constructor
          · linarith
          constructor
          · linarith
          · linarith
      · rcases lt_or_ge x.2 (k : Int) with hylt | hyge
        · refine ⟨cellInterZ (squareRegion (2 * k)) 2 1 0, by simp, ?_⟩
          rw [mem_cellInterZ_square hk (by omega) (by omega)]
          push_cast
          constructor
          · linarith
          constructor
          · linarith
          constructor
          · linarith
          · linarith
        · refine ⟨cellInterZ (squareRegion (2 * k)) 2 1 1, by simp, ?_⟩
          rw [mem_cellInterZ_square hk (by omega) (by omega)]
          push_cast
          constructor
          · linarith
          constructor
          · linarith
          constructor
          · linarith
          · linarith
    · rintro ⟨t, ht, hx⟩
      simp only [List.mem_cons, List.not_mem_nil, or_false] at ht
      have hkpos : (1 : Int) ≤ (k : Int) := by exact_mod_cast hk
      have hcast : ((2 * k : Nat) : Int) = 2 * (k : Int) := by push_cast; ring
      rw [mem_squareRegion, hcast]
      rcases ht with rfl | rfl | rfl | rfl
      · rw [mem_cellInterZ_square hk (by omega) (by omega)] at hx
        push_cast at hx
        refine ⟨by linarith [hx.1], by linarith [hx.2.1], by
          linarith [hx.2.2.1], by linarith [hx.2.2.2]⟩
      · rw [mem_cellInterZ_square hk (by omega) (by omega)] at hx
        push_cast at hx
        refine ⟨by linarith [hx.1], by linarith [hx.2.1], by
          linarith [hx.2.2.1], by linarith [hx.2.2.2]⟩
      · rw [mem_cellInterZ_square hk (by omega) (by omega)] at hx
        push_cast at hx
        refine ⟨by linarith [hx.1], by linarith [hx.2.1], by
          linarith [hx.2.2.1], by linarith [hx.2.2.2]⟩
      · rw [mem_cellInterZ_square hk (by omega) (by omega)] at hx
        push_cast at hx
        refine ⟨by linarith [hx.1], by linarith [hx.2.1], by
          linarith [hx.2.2.1], by linarith [hx.2.2.2]⟩

/-- C4 witness: the concrete 4 × 4 square splits into exactly 4 tiles. -/
theorem c4_square_split_witness :
    (split_polygon_grid (squareRegion (2 * 2)) 2).length = 4 :=
  (c4_square_split 2 (by omega)).1

/-- C9 witness: a one-pixel polygon split with `max_cells = 1`. -/
theorem c9_split_tiles_are_polygons_witness :
    ([((0 : Int), (0 : Int))] : Region) ≠ [] ∧
    geom_type [((0 : Int), (0 : Int))] = "Polygon" :=
  c9_split_tiles_are_polygons [((0 : Int), (0 : Int))] 1
    [((0 : Int), (0 : Int))]
    (by rw [split_eq_splitZ _ _ (by omega)]; decide)

/-! ## Geometry conversion paths (C8)

`gdf_to_fc` (`src/gee_data_download.py`, lines 30-57) converts each input
row to a remote-service feature, skipping with a warning any geometry whose
`geom_type` is not in `['Point', 'LineString', 'Polygon', 'MultiPolygon']`;
the per-geometry loop of `get_sentinel2_monthly`
(`src/gee_data_download_temporal.py`, lines 93-103) instead supports only
Point and Polygon and skips everything else. Point and LineString carry
their coordinates; `ee.Geometry.Polygon(list(p.exterior.coords))` is
modelled by the pixel region itself (its exterior ring determines it), and a
MultiPolygon becomes one `ee.Geometry.Polygon` built from the exterior ring
of each part. -/

/-- An input `shapely` geometry as seen by the scripts. `other` covers any
further `geom_type` (e.g. "MultiPoint", "GeometryCollection"). -/
inductive Geom where
  | point : ℚ × ℚ → Geom
  | lineString : List (ℚ × ℚ) → Geom
  | polygon : Region → Geom
  | multiPolygon : List Region → Geom
  | other : String → Geom

/-- `row.geometry.geom_type`. -/
def geomTypeOf : Geom → String
  | .point _ => "Point"
  | .lineString _ => "LineString"
  | .polygon _ => "Polygon"
  | .multiPolygon _ => "MultiPolygon"
  | .other s => s

/-- A remote-service geometry (`ee.Geometry....`); a polygon carries its
list of rings, one per exterior ring passed in. -/
inductive EEGeom where
  | point : ℚ × ℚ → EEGeom
  | lineString : List (ℚ × ℚ) → EEGeom
  | polygon : List Region → EEGeom

/-- `gdf_to_fc` (lines 30-57): one feature per supported row, unsupported
rows skipped with a warning, labels carried through. -/
def gdf_to_fc {L : Type} (rows : List (Geom × L)) : List (EEGeom × L) :=
  rows.filterMap (fun rl =>
    match rl.1 with
    | .point c => some (.point c, rl.2)
    | .lineString cs => some (.lineString cs, rl.2)
    | .polygon p => some (.polygon [p], rl.2)
    | .multiPolygon ps => some (.polygon ps, rl.2)
    | .other _ => none)

/-- The `ee_geoms` list built for one geometry by the temporal loop
(lines 96-103): a Point is one tile, a Polygon is grid-split into tiles,
anything else is skipped with a warning. -/
def temporalEEGeoms (g : Geom) : List EEGeom :=
  match g with
  | .point c => [.point c]
  | .polygon p => (split_polygon_grid p 4).map (fun t => .polygon [t])
  | _ => []

/-- C8 counterexample: a LineString row is NOT skipped by `gdf_to_fc` — it
is converted to an `ee.Geometry.LineString` feature, so it contributes an
output feature, contradicting the claim that both conversion paths skip
every non-Point/Polygon geometry. -/
theorem c8_counterexample :
    gdf_to_fc [(Geom.lineString [((0 : ℚ), (0 : ℚ)), ((1 : ℚ), (1 : ℚ))],
        (0 : Nat))] =
      [(EEGeom.lineString [((0 : ℚ), (0 : ℚ)), ((1 : ℚ), (1 : ℚ))],
        (0 : Nat))] ∧
    gdf_to_fc [(Geom.lineString [((0 : ℚ), (0 : ℚ)), ((1 : ℚ), (1 : ℚ))],
        (0 : Nat))] ≠ [] := by
  refine ⟨rfl, ?_⟩
  intro h
  exact List.cons_ne_nil _ _ h

/-- C8 (amended): in the temporal per-geometry loop every geometry that is
not a Point or Polygon (LineString and MultiPolygon included) is skipped and
contributes zero tiles; in `gdf_to_fc` only geometries outside
{Point, LineString, Polygon, MultiPolygon} are skipped (the run continuing
with the remaining rows), while LineString and MultiPolygon rows DO each
contribute a feature. -/
theorem c8_geometry_dispatch {L : Type} :
    (∀ g : Geom, geomTypeOf g ≠ "Point" → geomTypeOf g ≠ "Polygon" →
      temporalEEGeoms g = []) ∧
    (∀ (g : Geom) (lab : L) (rows : List (Geom × L)),
      geomTypeOf g ≠ "Point" → geomTypeOf g ≠ "LineString" →
      geomTypeOf g ≠ "Polygon" → geomTypeOf g ≠ "MultiPolygon" →
      gdf_to_fc ((g, lab) :: rows) = gdf_to_fc rows) ∧
    (∀ (cs : List (ℚ × ℚ)) (lab : L) (rows : List (Geom × L)),
      gdf_to_fc ((Geom.lineString cs, lab) :: rows) =
        (EEGeom.lineString cs, lab) :: gdf_to_fc rows) ∧
    (∀ (ps : List Region) (lab : L) (rows : List (Geom × L)),
      gdf_to_fc ((Geom.multiPolygon ps, lab) :: rows) =
        (EEGeom.polygon ps, lab) :: gdf_to_fc rows) := by
  refine ⟨?_, ?_, ?_, ?_⟩
  · intro g hp hpoly
    cases g with
    | point c => exact absurd rfl hp
    | lineString cs => rfl
    | polygon p => exact absurd rfl hpoly
    | multiPolygon ps => rfl
    | other s => rfl
  · intro g lab rows hp hl hpoly hmp
    cases g with
    | point c => exact absurd rfl hp
    | lineString cs => exact absurd rfl hl
    | polygon p => exact absurd rfl hpoly
    | multiPolygon ps => exact absurd rfl hmp
    | other s => rfl
  · intro cs lab rows
    rfl
  · intro ps lab rows
    rfl

/-- C8 witness: the temporal path drops a MultiPolygon geometry. -/
theorem c8_geometry_dispatch_witness :
    temporalEEGeoms (Geom.multiPolygon [[((0 : Int), (0 : Int))]]) = [] :=
  (@c8_geometry_dispatch Nat).1
    (Geom.multiPolygon [[((0 : Int), (0 : Int))]])
    (by decide) (by decide)

end LandCover
